import Mathlib

/-!
# Verification of `mandelmovie.c`

A shallow embedding of the core of `src/mandelmovie.c`: the escape-time
evaluator (`iterations_at_point`), the color mapper (`iteration_to_color`),
the per-pixel coordinate mapping and row/thread rendering loops
(`compute_image_region`, `compute_image`), the frame-range partitioning of
the fork loop in `main`, the zoom-trajectory arithmetic, the filename
derivations, the configuration validation, and the coordinator's wait loop.

Machine `double` arithmetic is modelled by exact arithmetic: `ℚ` where the
source only adds, multiplies and divides, `ℝ` where the source calls `pow`
with a fractional exponent. C `int` values that the embedding needs are
modelled as `ℕ`/`ℤ` with the source's operations made explicit.
-/

namespace Mandelmovie

/-! ## Escape-time evaluator (`iterations_at_point`, lines 196-207) -/

/-- The loop body of `iterations_at_point`, recursing on the remaining
iteration budget (`fuel = max - iter`).  Mirrors
`while ((x*x + y*y <= 4) && iter < max) { xt = x*x - y*y + x0; yt = 2*x*y + y0; ... iter++; }`:
each pass that finds `x*x + y*y ≤ 4` performs one update `z ← z² + c` and
counts it; the loop stops as soon as the squared modulus exceeds 4 or the
budget is exhausted. -/
def iterLoop (x0 y0 : ℚ) : ℚ → ℚ → ℕ → ℕ
  | _, _, 0 => 0
  | x, y, fuel + 1 =>
    if x * x + y * y ≤ 4 then
      iterLoop x0 y0 (x * x - y * y + x0) (2 * x * y + y0) fuel + 1
    else 0

/-- `iterations_at_point(x, y, max)` (lines 196-207): `z` is initialised to
`(x, y)` and `c = (x0, y0) = (x, y)`; the function returns the number of loop
iterations performed. -/
def iterations_at_point (x y : ℚ) (max : ℕ) : ℕ :=
  iterLoop x y x y max

/-- The Mandelbrot orbit `z_k` of the point `c = (x0, y0)` with
`z_0 = (x0, y0)` and `z_{k+1} = z_k² + c`, exactly the update performed by
the body of `iterations_at_point`. -/
def mandelOrbit (x0 y0 : ℚ) : ℕ → ℚ × ℚ
  | 0 => (x0, y0)
  | k + 1 =>
    (((mandelOrbit x0 y0 k).1 * (mandelOrbit x0 y0 k).1
        - (mandelOrbit x0 y0 k).2 * (mandelOrbit x0 y0 k).2 + x0),
     (2 * (mandelOrbit x0 y0 k).1 * (mandelOrbit x0 y0 k).2 + y0))

/-- Squared modulus of a point, the quantity the escape test compares to 4. -/
def normSq (p : ℚ × ℚ) : ℚ := p.1 * p.1 + p.2 * p.2

lemma mandelOrbit_succ (x0 y0 : ℚ) (k : ℕ) :
    mandelOrbit x0 y0 (k + 1)
      = ((mandelOrbit x0 y0 k).1 * (mandelOrbit x0 y0 k).1
          - (mandelOrbit x0 y0 k).2 * (mandelOrbit x0 y0 k).2 + x0,
         2 * (mandelOrbit x0 y0 k).1 * (mandelOrbit x0 y0 k).2 + y0) := rfl

/-- Characterisation of the loop: started at orbit position `s` with `fuel`
iterations left, it returns a count `r ≤ fuel` such that every orbit point it
stepped through satisfied the escape test and, unless the budget ran out, the
point it stopped at fails it. -/
lemma iterLoop_spec (x0 y0 : ℚ) :
    ∀ fuel s,
      iterLoop x0 y0 (mandelOrbit x0 y0 s).1 (mandelOrbit x0 y0 s).2 fuel ≤ fuel
      ∧ (∀ j < iterLoop x0 y0 (mandelOrbit x0 y0 s).1 (mandelOrbit x0 y0 s).2 fuel,
          normSq (mandelOrbit x0 y0 (s + j)) ≤ 4)
      ∧ (iterLoop x0 y0 (mandelOrbit x0 y0 s).1 (mandelOrbit x0 y0 s).2 fuel < fuel →
          4 < normSq (mandelOrbit x0 y0
            (s + iterLoop x0 y0 (mandelOrbit x0 y0 s).1 (mandelOrbit x0 y0 s).2 fuel))) := by
  intro fuel
  induction fuel with
  | zero =>
    intro s
    refine ⟨Nat.le_refl _, ?_, ?_⟩
    · intro j hj; exact absurd hj (Nat.not_lt_zero _)
    · intro h; exact absurd h (Nat.lt_irrefl _)
  | succ n ih =>
    intro s
    by_cases h : (mandelOrbit x0 y0 s).1 * (mandelOrbit x0 y0 s).1
        + (mandelOrbit x0 y0 s).2 * (mandelOrbit x0 y0 s).2 ≤ 4
    · have hstep :
          iterLoop x0 y0 (mandelOrbit x0 y0 s).1 (mandelOrbit x0 y0 s).2 (n + 1)
            = iterLoop x0 y0 (mandelOrbit x0 y0 (s + 1)).1 (mandelOrbit x0 y0 (s + 1)).2 n
              + 1 := by
        rw [iterLoop, if_pos h, mandelOrbit_succ]
      obtain ⟨ih1, ih2, ih3⟩ := ih (s + 1)
      rw [hstep]
      refine ⟨Nat.succ_le_succ ih1, ?_, ?_⟩
      · intro j hj
        cases j with
        | zero => simpa [normSq] using h
        | succ j' =>
          have hj' : j' < iterLoop x0 y0 (mandelOrbit x0 y0 (s + 1)).1
              (mandelOrbit x0 y0 (s + 1)).2 n := Nat.lt_of_succ_lt_succ hj
          have := ih2 j' hj'
          have harith : s + 1 + j' = s + (j' + 1) := by omega
          rwa [harith] at this
      · intro hlt
        have hlt' : iterLoop x0 y0 (mandelOrbit x0 y0 (s + 1)).1
            (mandelOrbit x0 y0 (s + 1)).2 n < n := Nat.lt_of_succ_lt_succ hlt
        have := ih3 hlt'
        have harith : s + 1 + iterLoop x0 y0 (mandelOrbit x0 y0 (s + 1)).1
            (mandelOrbit x0 y0 (s + 1)).2 n
              = s + (iterLoop x0 y0 (mandelOrbit x0 y0 (s + 1)).1
                  (mandelOrbit x0 y0 (s + 1)).2 n + 1) := by omega
        rwa [harith] at this
    · have hstop :
          iterLoop x0 y0 (mandelOrbit x0 y0 s).1 (mandelOrbit x0 y0 s).2 (n + 1) = 0 := by
        rw [iterLoop, if_neg h]
      rw [hstop]
      refine ⟨Nat.zero_le _, ?_, ?_⟩
      · intro j hj; exact absurd hj (Nat.not_lt_zero _)
      · intro _
        have : 4 < normSq (mandelOrbit x0 y0 s) := by
          simp only [normSq]
          exact lt_of_not_le h
        simpa using this

/-- `iterations_at_point` in terms of the orbit: it never exceeds the cap,
every orbit point before the returned index passes the escape test, and when
the cap was not reached the stopping point has squared modulus above 4. -/
lemma iterations_at_point_spec (x y : ℚ) (max : ℕ) :
    iterations_at_point x y max ≤ max
    ∧ (∀ j < iterations_at_point x y max, normSq (mandelOrbit x y j) ≤ 4)
    ∧ (iterations_at_point x y max < max →
        4 < normSq (mandelOrbit x y (iterations_at_point x y max))) := by
  have h := iterLoop_spec x y max 0
  simpa [iterations_at_point, mandelOrbit] using h

lemma mandelOrbit_zero_zero : ∀ k, mandelOrbit 0 0 k = (0, 0) := by
  intro k
  induction k with
  | zero => rfl
  | succ n ih => rw [mandelOrbit_succ, ih]; norm_num

/-! ## Color mapper (`iteration_to_color`, lines 210-217) -/

/-- `iteration_to_color(iters, max)` (lines 210-217): black (`0x000000`) when
`iters == max`; otherwise the packed RGB value
`(red << 16) | (green << 8) | blue` with
`red = (iters*7) % 256`, `green = (iters*13) % 256`, `blue = (iters*17) % 256`. -/
def iteration_to_color (iters max : ℕ) : ℕ :=
  if iters = max then 0
  else ((iters * 7 % 256) <<< 16) ||| ((iters * 13 % 256) <<< 8) ||| (iters * 17 % 256)

/-! ## Theorems for the escape-time evaluator and color mapper -/

/-- C8: for every point `(x, y)` and cap `max ≥ 0`, `iterations_at_point`
returns the number of iterations of `z ← z² + c` (with `c = (x, y)` and `z`
initialised to `(x, y)`) performed before `|z|²` exceeds 4 — i.e. the result
`n` satisfies `n ≤ max`, every orbit point strictly before index `n` has
squared modulus at most 4, and if `n < max` the orbit point at index `n`
escapes — and in particular every point with `x² + y² > 4` yields 0 and the
point `(0, 0)` yields exactly `max` for every `max`. -/
theorem mandel_C8 (x y : ℚ) (max : ℕ) :
    iterations_at_point x y max ≤ max
    ∧ (∀ j < iterations_at_point x y max, normSq (mandelOrbit x y j) ≤ 4)
    ∧ (iterations_at_point x y max < max →
        4 < normSq (mandelOrbit x y (iterations_at_point x y max)))
    ∧ (4 < x * x + y * y → iterations_at_point x y max = 0)
    ∧ iterations_at_point 0 0 max = max := by
  obtain ⟨h1, h2, h3⟩ := iterations_at_point_spec x y max
  refine ⟨h1, h2, h3, ?_, ?_⟩
  · intro hout
    cases max with
    | zero => rfl
    | succ n =>
      simp only [iterations_at_point, iterLoop]
      rw [if_neg (not_le.mpr hout)]
  · obtain ⟨g1, g2, g3⟩ := iterations_at_point_spec 0 0 max
    by_contra hne
    have hlt : iterations_at_point 0 0 max < max := lt_of_le_of_ne g1 hne
    have := g3 hlt
    rw [mandelOrbit_zero_zero] at this
    norm_num [normSq] at this

/-- Witness for `mandel_C8` at the concrete inputs `(3, 0)` (outside the
disk of radius 2) and cap 7: the evaluator returns 0 there, and `(0, 0)`
returns the cap. -/
theorem mandel_C8_witness :
    iterations_at_point 3 0 7 = 0 ∧ iterations_at_point 0 0 7 = 7 :=
  ⟨(mandel_C8 3 0 7).2.2.2.1 (by norm_num), (mandel_C8 0 0 7).2.2.2.2⟩

/-- Counterexample to C9 as stated: the claim says two inputs with equal
normalized ratio `t = iters/max` get equal colors, but
`iteration_to_color` depends on `iters` alone: `(1, 2)` and `(2, 4)` have the
same ratio `t = 1/2` yet produce different colors. -/
theorem mandel_C9_counterexample :
    (1 : ℚ) / 2 = 2 / 4 ∧ iteration_to_color 1 2 ≠ iteration_to_color 2 4 := by
  constructor
  · norm_num
  · decide

/-- C9 (amended): the Color Mapper is deterministic; `iters = max` yields
exactly black (0); for any other `iters` the color is the fixed packed value
`(r <<< 16) ||| (g <<< 8) ||| b` with each channel `r, g, b` in `[0, 255]`,
a function of `iters` alone (modular byte multiplies), so the color does not
depend on `max` beyond the equality test — it is not a function of the
normalized ratio `iters/max`. -/
theorem mandel_C9 (iters max : ℕ) :
    (iters = max → iteration_to_color iters max = 0)
    ∧ (iters ≠ max →
        ∃ r g b, r ≤ 255 ∧ g ≤ 255 ∧ b ≤ 255
          ∧ iteration_to_color iters max = (r <<< 16) ||| (g <<< 8) ||| b)
    ∧ (∀ max2, iters ≠ max → iters ≠ max2 →
        iteration_to_color iters max = iteration_to_color iters max2) := by
  refine ⟨?_, ?_, ?_⟩
  · intro h; simp [iteration_to_color, h]
  · intro h
    refine ⟨iters * 7 % 256, iters * 13 % 256, iters * 17 % 256, ?_, ?_, ?_, ?_⟩
    · exact Nat.le_of_lt_succ (Nat.mod_lt _ (by norm_num))
    · exact Nat.le_of_lt_succ (Nat.mod_lt _ (by norm_num))
    · exact Nat.le_of_lt_succ (Nat.mod_lt _ (by norm_num))
    · simp [iteration_to_color, h]
  · intro max2 h h2
    simp [iteration_to_color, h, h2]

/-- Witness for `mandel_C9` at `iters = 5`, `max = 5` and `max2 = 9`:
`5 = 5` gives black, and for `iters = 3` the color under caps 5 and 9
coincides. -/
theorem mandel_C9_witness :
    iteration_to_color 5 5 = 0
    ∧ iteration_to_color 3 5 = iteration_to_color 3 9 :=
  ⟨(mandel_C9 5 5).1 rfl, (mandel_C9 3 5).2.2 9 (by decide) (by decide)⟩

/-! ## Row bands (`compute_image`, lines 170-191) and frame ranges
(`main`, lines 112-122) -/

/-- `rows_per_thread = img->height / num_threads` (line 173). -/
def rows_per_thread (H T : ℕ) : ℕ := H / T

/-- `thread_data[t].start_row = t * rows_per_thread` (line 182). -/
def band_start (H T t : ℕ) : ℕ := t * rows_per_thread H T

/-- `thread_data[t].end_row = (t == num_threads - 1) ? img->height : (t + 1) * rows_per_thread`
(line 183). -/
def band_end (H T t : ℕ) : ℕ :=
  if t = T - 1 then H else (t + 1) * rows_per_thread H T

/-- `images_per_process = num_images / num_processes` (line 113). -/
def images_per_process (n P : ℕ) : ℕ := n / P

/-- `remainder_images = num_images % num_processes` (line 114). -/
def remainder_images (n P : ℕ) : ℕ := n % P

/-- `start = p * images_per_process` (line 118). -/
def range_start (n P p : ℕ) : ℕ := p * images_per_process n P

/-- `end = start + images_per_process`, plus `remainder_images` for the last
process (lines 119-122). -/
def range_end (n P p : ℕ) : ℕ :=
  range_start n P p + images_per_process n P
    + (if p = P - 1 then remainder_images n P else 0)

lemma band_end_le (H T t : ℕ) (ht : t < T) : band_end H T t ≤ H := by
  unfold band_end rows_per_thread
  by_cases h : t = T - 1
  · rw [if_pos h]
  · rw [if_neg h]
    calc (t + 1) * (H / T) ≤ T * (H / T) :=
          Nat.mul_le_mul_right _ (by omega)
      _ ≤ H := by rw [Nat.mul_comm]; exact Nat.div_mul_le_self H T

lemma band_end_last (H T : ℕ) : band_end H T (T - 1) = H := by
  unfold band_end; rw [if_pos rfl]

/-- Existence half of the partition property: every row `j < H` lies in the
band of some thread `t < T`, for any `T ≥ 1` (including `T > H`, where all
bands but the last are empty). -/
lemma band_cover (H T : ℕ) (hT : 1 ≤ T) (j : ℕ) (hj : j < H) :
    ∃ t, t < T ∧ band_start H T t ≤ j ∧ j < band_end H T t := by
  rcases Nat.eq_zero_or_pos (rows_per_thread H T) with hr0 | hrpos
  · exact ⟨T - 1, by omega, by simp [band_start, hr0],
      by rw [band_end_last]; exact hj⟩
  · set r := rows_per_thread H T with hr
    by_cases hcase : j / r < T - 1
    · refine ⟨j / r, lt_of_lt_of_le hcase (Nat.sub_le T 1), ?_, ?_⟩
      · unfold band_start
        rw [← hr]
        exact Nat.div_mul_le_self j r
      · unfold band_end
        rw [if_neg (Nat.ne_of_lt hcase), ← hr]
        have hlt : j < r * (j / r) + r :=
          calc j = r * (j / r) + j % r := (Nat.div_add_mod j r).symm
            _ < r * (j / r) + r := Nat.add_lt_add_left (Nat.mod_lt j hrpos) _
        have heq : (j / r + 1) * r = r * (j / r) + r := by ring
        rw [heq]
        exact hlt
    · refine ⟨T - 1, by omega, ?_, ?_⟩
      · unfold band_start
        rw [← hr]
        calc (T - 1) * r ≤ j / r * r :=
              Nat.mul_le_mul_right _ (Nat.le_of_not_lt hcase)
          _ ≤ j := Nat.div_mul_le_self j r
      · rw [band_end_last]; exact hj

/-- Uniqueness half: no row lies in two distinct bands. -/
lemma band_disjoint (H T : ℕ) (j t t' : ℕ) (ht : t < T) (ht' : t' < T)
    (h1 : band_start H T t ≤ j ∧ j < band_end H T t)
    (h2 : band_start H T t' ≤ j ∧ j < band_end H T t') : t = t' := by
  by_contra hne
  -- by symmetry assume t < t'
  rcases Nat.lt_or_ge t t' with hlt | hge
  · have htne : t ≠ T - 1 := by omega
    have hend : band_end H T t = (t + 1) * rows_per_thread H T := by
      unfold band_end; rw [if_neg htne]
    have : j < (t + 1) * rows_per_thread H T := hend ▸ h1.2
    have hstart : t' * rows_per_thread H T ≤ j := h2.1
    have : (t + 1) * rows_per_thread H T ≤ t' * rows_per_thread H T :=
      Nat.mul_le_mul_right _ (by omega)
    omega
  · have hlt' : t' < t := by omega
    have htne : t' ≠ T - 1 := by omega
    have hend : band_end H T t' = (t' + 1) * rows_per_thread H T := by
      unfold band_end; rw [if_neg htne]
    have : j < (t' + 1) * rows_per_thread H T := hend ▸ h2.2
    have hstart : t * rows_per_thread H T ≤ j := h1.1
    have : (t' + 1) * rows_per_thread H T ≤ t * rows_per_thread H T :=
      Nat.mul_le_mul_right _ (by omega)
    omega

/-- The frame-range bounds of the fork loop coincide with the band bounds
(same integer-division scheme, the last worker absorbing the remainder). -/
lemma range_eq_band (n P p : ℕ) (hP : 1 ≤ P) :
    range_start n P p = band_start n P p ∧ range_end n P p = band_end n P p := by
  constructor
  · rfl
  · unfold range_end range_start images_per_process remainder_images band_end
      rows_per_thread
    by_cases h : p = P - 1
    · rw [if_pos h, if_pos h, h]
      have h1 : (P - 1) * (n / P) + n / P = P * (n / P) := by
        have : P - 1 + 1 = P := by omega
        calc (P - 1) * (n / P) + n / P = (P - 1 + 1) * (n / P) := by ring
          _ = P * (n / P) := by rw [this]
      rw [h1]
      exact Nat.div_add_mod n P
    · rw [if_neg h, if_neg h]
      ring

/-- C6: for `1 ≤ T ≤ H` the RowBands are contiguous half-open ranges that
partition `[0, H)` exactly (every row lies in exactly one band, the first
band starts at 0, consecutive bands abut, the last band ends at `H`,
absorbing the remainder); the analogous partition property holds for the
FrameRanges over `[0, num_images)`; and `num_images = 10` with
`num_processes = 3` yields exactly `[0,3)`, `[3,6)`, `[6,10)`. -/
theorem mandel_C6 (H T n P : ℕ) (hT1 : 1 ≤ T) (hTH : T ≤ H) (hP : 1 ≤ P) :
    ((∀ j, j < H → ∃! t, t < T ∧ band_start H T t ≤ j ∧ j < band_end H T t)
      ∧ band_start H T 0 = 0
      ∧ band_end H T (T - 1) = H
      ∧ (∀ t, t + 1 < T → band_end H T t = band_start H T (t + 1)))
    ∧ (∀ j, j < n → ∃! p, p < P ∧ range_start n P p ≤ j ∧ j < range_end n P p)
    ∧ ((range_start 10 3 0 = 0 ∧ range_end 10 3 0 = 3)
      ∧ (range_start 10 3 1 = 3 ∧ range_end 10 3 1 = 6)
      ∧ (range_start 10 3 2 = 6 ∧ range_end 10 3 2 = 10)) := by
  refine ⟨⟨?_, ?_, band_end_last H T, ?_⟩, ?_, by decide⟩
  · intro j hj
    obtain ⟨t, ht, hmem⟩ := band_cover H T hT1 j hj
    refine ⟨t, ⟨ht, hmem⟩, ?_⟩
    intro t' ⟨ht', hmem'⟩
    exact band_disjoint H T j t' t ht' ht hmem' hmem
  · simp [band_start]
  · intro t ht
    unfold band_end band_start
    rw [if_neg (by omega)]
  · intro j hj
    obtain ⟨t, ht, hmem⟩ := band_cover n P hP j hj
    refine ⟨t, ⟨ht, ?_, ?_⟩, ?_⟩
    · rw [(range_eq_band n P t hP).1]; exact hmem.1
    · rw [(range_eq_band n P t hP).2]; exact hmem.2
    · intro t' ⟨ht', hm1, hm2⟩
      rw [(range_eq_band n P t' hP).1] at hm1
      rw [(range_eq_band n P t' hP).2] at hm2
      exact band_disjoint n P j t' t ht' ht ⟨hm1, hm2⟩ hmem

/-- Witness for `mandel_C6` at `H = 10`, `T = 3`, `n = 10`, `P = 3`: the row
partition exists for row 7 and the concrete FrameRanges are
`[0,3)`, `[3,6)`, `[6,10)`. -/
theorem mandel_C6_witness :
    (∃! t, t < 3 ∧ band_start 10 3 t ≤ 7 ∧ 7 < band_end 10 3 t)
    ∧ range_end 10 3 2 = 10 := by
  have h := mandel_C6 10 3 10 3 (by decide) (by decide) (by decide)
  exact ⟨h.1.1 7 (by decide), h.2.2.2.2.2⟩

/-! ## Frame renderer (`compute_image_region` lines 155-167,
`compute_image` lines 170-191)

The pixel buffer is modelled as a total function from coordinates to packed
RGB values; `setPixelCOLOR` is a pointwise update.  Each thread's loop nest
is embedded as structural recursion that performs the same writes in the
same ascending order.  The threads of `compute_image` are executed as a
sequence (thread 0's band first, then thread 1's, ...): because the bands
are disjoint and each write depends only on its own coordinates, every
interleaving of the concurrent writes yields this same final buffer, so the
sequential composition is the faithful functional model. -/

/-- The parameters of one frame render: pixel dimensions, viewport bounds
and the iteration cap (fields of `ThreadData` shared by all threads). -/
structure RenderJob where
  W : ℕ
  H : ℕ
  xmin : ℚ
  xmax : ℚ
  ymin : ℚ
  ymax : ℚ
  maxIter : ℕ

/-- A pixel buffer: coordinates to packed RGB value. -/
def Buffer : Type := ℕ → ℕ → ℕ

/-- `setPixelCOLOR(img, i, j, c)`: pointwise update of the buffer. -/
def setPixelCOLOR (buf : Buffer) (i j c : ℕ) : Buffer :=
  fun a b => if a = i ∧ b = j then c else buf a b

/-- `x = xmin + i * (xmax - xmin) / width` (line 160). -/
def pixel_x (p : RenderJob) (i : ℕ) : ℚ :=
  p.xmin + i * (p.xmax - p.xmin) / p.W

/-- `y = ymin + j * (ymax - ymin) / height` (line 161). -/
def pixel_y (p : RenderJob) (j : ℕ) : ℚ :=
  p.ymin + j * (p.ymax - p.ymin) / p.H

/-- The color written at pixel `(i, j)` (lines 160-163): map the pixel to a
complex-plane point, run the escape-time evaluator, apply the color mapper. -/
def pixel_color (p : RenderJob) (i j : ℕ) : ℕ :=
  iteration_to_color (iterations_at_point (pixel_x p i) (pixel_y p j) p.maxIter) p.maxIter

/-- The inner column loop of `compute_image_region` after `k` steps: writes
columns `0, 1, ..., k-1` of row `j` in ascending order. -/
def renderRowAux (p : RenderJob) (j : ℕ) : ℕ → Buffer → Buffer
  | 0, buf => buf
  | k + 1, buf => setPixelCOLOR (renderRowAux p j k buf) k j (pixel_color p k j)

/-- One full row `j`: columns `0 ≤ i < width` (line 159). -/
def renderRow (p : RenderJob) (j : ℕ) (buf : Buffer) : Buffer :=
  renderRowAux p j p.W buf

/-- The outer row loop after `k` steps starting at row `s`: rows
`s, s+1, ..., s+k-1` in ascending order. -/
def renderRowsAux (p : RenderJob) (s : ℕ) : ℕ → Buffer → Buffer
  | 0, buf => buf
  | k + 1, buf => renderRow p (s + k) (renderRowsAux p s k buf)

/-- `compute_image_region` (lines 155-167): rows `start_row ≤ j < end_row`. -/
def compute_image_region (p : RenderJob) (s e : ℕ) (buf : Buffer) : Buffer :=
  renderRowsAux p s (e - s) buf

/-- The thread fan-out of `compute_image` after `k` threads: thread `t` runs
`compute_image_region` on its RowBand (lines 175-190); the bands are
disjoint so this sequential composition equals every concurrent schedule. -/
def compute_image_aux (p : RenderJob) (T : ℕ) : ℕ → Buffer → Buffer
  | 0, buf => buf
  | k + 1, buf =>
    compute_image_region p (band_start p.H T k) (band_end p.H T k)
      (compute_image_aux p T k buf)

/-- `compute_image(img, xmin, xmax, ymin, ymax, max, num_threads)`
(lines 170-191): all `T` threads render their bands, then are joined. -/
def compute_image (p : RenderJob) (T : ℕ) (buf : Buffer) : Buffer :=
  compute_image_aux p T T buf

lemma renderRowAux_apply (p : RenderJob) (j k : ℕ) (buf : Buffer) (a b : ℕ) :
    renderRowAux p j k buf a b
      = if a < k ∧ b = j then pixel_color p a b else buf a b := by
  induction k with
  | zero => simp [renderRowAux]
  | succ n ih =>
    simp only [renderRowAux, setPixelCOLOR]
    by_cases h : a = n ∧ b = j
    · rw [if_pos h, if_pos ⟨by omega, h.2⟩, h.1, h.2]
    · rw [if_neg h, ih]
      by_cases h2 : a < n ∧ b = j
      · rw [if_pos h2, if_pos ⟨by omega, h2.2⟩]
      · rw [if_neg h2, if_neg (by omega)]

lemma renderRowsAux_apply (p : RenderJob) (s k : ℕ) (buf : Buffer) (a b : ℕ) :
    renderRowsAux p s k buf a b
      = if a < p.W ∧ s ≤ b ∧ b < s + k then pixel_color p a b else buf a b := by
  induction k with
  | zero =>
    simp only [renderRowsAux]
    rw [if_neg (by omega)]
  | succ n ih =>
    simp only [renderRowsAux, renderRow]
    rw [renderRowAux_apply]
    by_cases h : a < p.W ∧ b = s + n
    · rw [if_pos h, if_pos ⟨h.1, by omega, by omega⟩]
    · rw [if_neg h, ih]
      by_cases h2 : a < p.W ∧ s ≤ b ∧ b < s + n
      · rw [if_pos h2, if_pos ⟨h2.1, by omega, by omega⟩]
      · rw [if_neg h2, if_neg (by omega)]

lemma compute_image_region_apply (p : RenderJob) (s e : ℕ) (buf : Buffer)
    (a b : ℕ) (hse : s ≤ e) :
    compute_image_region p s e buf a b
      = if a < p.W ∧ s ≤ b ∧ b < e then pixel_color p a b else buf a b := by
  unfold compute_image_region
  rw [renderRowsAux_apply]
  have : s + (e - s) = e := by omega
  rw [this]

/-- Semantics of the thread fan-out: after `k` threads have run, a cell holds
the pixel color exactly when some finished thread's band covers it. -/
lemma compute_image_aux_apply (p : RenderJob) (T : ℕ) (a b : ℕ) :
    ∀ k (buf : Buffer),
      ((∃ t, t < k ∧ a < p.W ∧ band_start p.H T t ≤ b ∧ b < band_end p.H T t) →
        compute_image_aux p T k buf a b = pixel_color p a b)
      ∧ (¬ (∃ t, t < k ∧ a < p.W ∧ band_start p.H T t ≤ b ∧ b < band_end p.H T t) →
        compute_image_aux p T k buf a b = buf a b) := by
  intro k
  induction k with
  | zero =>
    intro buf
    constructor
    · rintro ⟨t, ht, _⟩; exact absurd ht (Nat.not_lt_zero _)
    · intro _; rfl
  | succ n ih =>
    intro buf
    by_cases hband : band_start p.H T n ≤ band_end p.H T n
    · constructor
      · rintro ⟨t, ht, ha, hb1, hb2⟩
        simp only [compute_image_aux]
        rw [compute_image_region_apply _ _ _ _ _ _ hband]
        by_cases hcur : a < p.W ∧ band_start p.H T n ≤ b ∧ b < band_end p.H T n
        · rw [if_pos hcur]
        · rw [if_neg hcur]
          have ht' : t < n := by
            rcases Nat.lt_succ_iff_lt_or_eq.mp ht with h | h
            · exact h
            · exact absurd ⟨ha, h ▸ hb1, h ▸ hb2⟩ hcur
          exact (ih buf).1 ⟨t, ht', ha, hb1, hb2⟩
      · intro hnone
        simp only [compute_image_aux]
        rw [compute_image_region_apply _ _ _ _ _ _ hband]
        rw [if_neg (fun h => hnone ⟨n, Nat.lt_succ_self n, h.1, h.2.1, h.2.2⟩)]
        exact (ih buf).2 (fun ⟨t, ht, h⟩ => hnone ⟨t, Nat.lt_succ_of_lt ht, h⟩)
    · -- an empty band (end < start) renders no rows
      have hempty : ∀ buf2 : Buffer, compute_image_aux p T (n + 1) buf2 a b
          = compute_image_aux p T n buf2 a b := by
        intro buf2
        simp only [compute_image_aux, compute_image_region]
        have : band_end p.H T n - band_start p.H T n = 0 := by omega
        rw [this]
        rfl
      constructor
      · rintro ⟨t, ht, ha, hb1, hb2⟩
        rw [hempty]
        have ht' : t < n := by
          rcases Nat.lt_succ_iff_lt_or_eq.mp ht with h | h
          · exact h
          · subst h; omega
        exact (ih buf).1 ⟨t, ht', ha, hb1, hb2⟩
      · intro hnone
        rw [hempty]
        exact (ih buf).2 (fun ⟨t, ht, h⟩ => hnone ⟨t, Nat.lt_succ_of_lt ht, h⟩)

/-- Full semantics of `compute_image` for any thread count `T ≥ 1`: every
pixel of the `W × H` grid holds the per-pixel color, and cells outside the
grid keep the initial buffer contents. -/
lemma compute_image_apply (p : RenderJob) (T : ℕ) (hT : 1 ≤ T) (buf : Buffer)
    (a b : ℕ) :
    compute_image p T buf a b
      = if a < p.W ∧ b < p.H then pixel_color p a b else buf a b := by
  unfold compute_image
  by_cases h : a < p.W ∧ b < p.H
  · rw [if_pos h]
    obtain ⟨t, ht, hmem⟩ := band_cover p.H T hT b h.2
    exact (compute_image_aux_apply p T a b T buf).1 ⟨t, ht, h.1, hmem.1, hmem.2⟩
  · rw [if_neg h]
    refine (compute_image_aux_apply p T a b T buf).2 ?_
    rintro ⟨t, ht, ha, hb1, hb2⟩
    exact h ⟨ha, lt_of_lt_of_le hb2 (band_end_le p.H T t ht)⟩

/-- `MAX_THREADS`: declared in `mandelmovie.h` (not part of the repository
snapshot); its value 20 is fixed by the program's own help text, line 232:
`"-t <threads> Number of threads per image (1-20)"`. -/
def MAX_THREADS : ℕ := 20

/-- C7: for every RenderJob and every valid thread count
`1 ≤ T ≤ MAX_THREADS`, the rendered buffer is identical to the
single-threaded render, and every pixel `(i, j)` of the grid holds the color
obtained by mapping the pixel to the point
`x = xmin + i*(xmax-xmin)/width`, `y = ymin + j*(ymax-ymin)/height`
(so pixel `(0,0)` maps to `(xmin, ymin)`), evaluating the escape-time
iteration and applying the color mapper. -/
theorem mandel_C7 (p : RenderJob) (T : ℕ) (buf : Buffer)
    (hT1 : 1 ≤ T) (hT2 : T ≤ MAX_THREADS) :
    compute_image p T buf = compute_image p 1 buf
    ∧ (∀ i j, i < p.W → j < p.H →
        compute_image p T buf i j
          = iteration_to_color
              (iterations_at_point
                (p.xmin + i * (p.xmax - p.xmin) / p.W)
                (p.ymin + j * (p.ymax - p.ymin) / p.H)
                p.maxIter)
              p.maxIter)
    ∧ pixel_x p 0 = p.xmin ∧ pixel_y p 0 = p.ymin := by
  refine ⟨?_, ?_, ?_, ?_⟩
  · funext a b
    rw [compute_image_apply p T hT1 buf a b,
      compute_image_apply p 1 (by norm_num) buf a b]
  · intro i j hi hj
    rw [compute_image_apply p T hT1 buf i j, if_pos ⟨hi, hj⟩]
    rfl
  · simp [pixel_x]
  · simp [pixel_y]

/-- Witness for `mandel_C7`: a concrete 2 × 2 render with cap 2 over the
viewport `[0,1] × [0,1]`, with 2 threads, equals the single-threaded render
and satisfies the pixel formula at `(1, 1)`. -/
theorem mandel_C7_witness :
    compute_image ⟨2, 2, 0, 1, 0, 1, 2⟩ 2 (fun _ _ => 0)
        = compute_image ⟨2, 2, 0, 1, 0, 1, 2⟩ 1 (fun _ _ => 0)
    ∧ compute_image ⟨2, 2, 0, 1, 0, 1, 2⟩ 2 (fun _ _ => 0) 1 1
        = iteration_to_color
            (iterations_at_point ((0 : ℚ) + 1 * ((1 : ℚ) - 0) / 2)
              ((0 : ℚ) + 1 * ((1 : ℚ) - 0) / 2) 2) 2 := by
  have h := mandel_C7 ⟨2, 2, 0, 1, 0, 1, 2⟩ 2 (fun _ _ => 0)
    (by norm_num) (by norm_num [MAX_THREADS])
  exact ⟨h.1, by simpa using h.2.1 1 1 (by norm_num) (by norm_num)⟩

/-- C10: for every thread count `T` strictly greater than the image height
(and still within the accepted bound), `rows_per_thread` truncates to 0,
every thread except the last receives the empty band `[0, 0)`, the last
thread's band is the whole range `[0, H)`, and the resulting buffer is still
fully populated and identical to the single-threaded render. -/
theorem mandel_C10 (p : RenderJob) (T : ℕ) (buf : Buffer)
    (hH : p.H < T) (hT2 : T ≤ MAX_THREADS) :
    rows_per_thread p.H T = 0
    ∧ (∀ t, t < T - 1 → band_start p.H T t = 0 ∧ band_end p.H T t = 0)
    ∧ band_start p.H T (T - 1) = 0 ∧ band_end p.H T (T - 1) = p.H
    ∧ compute_image p T buf = compute_image p 1 buf
    ∧ (∀ i j, i < p.W → j < p.H →
        compute_image p T buf i j = pixel_color p i j) := by
  have hT1 : 1 ≤ T := by omega
  have hr0 : rows_per_thread p.H T = 0 := Nat.div_eq_of_lt hH
  refine ⟨hr0, ?_, ?_, band_end_last p.H T, ?_, ?_⟩
  · intro t ht
    constructor
    · simp [band_start, hr0]
    · unfold band_end
      rw [if_neg (by omega), hr0]
      exact Nat.mul_zero _
  · simp [band_start, hr0]
  · funext a b
    rw [compute_image_apply p T hT1 buf a b,
      compute_image_apply p 1 (by norm_num) buf a b]
  · intro i j hi hj
    rw [compute_image_apply p T hT1 buf i j, if_pos ⟨hi, hj⟩]

/-- Witness for `mandel_C10`: height 1, 3 threads — the first two bands are
`[0, 0)`, the last is `[0, 1)`, and the render equals the single-threaded
one. -/
theorem mandel_C10_witness :
    band_end 1 3 0 = 0 ∧ band_end 1 3 2 = 1
    ∧ compute_image ⟨1, 1, 0, 1, 0, 1, 1⟩ 3 (fun _ _ => 0)
        = compute_image ⟨1, 1, 0, 1, 0, 1, 1⟩ 1 (fun _ _ => 0) := by
  have h := mandel_C10 ⟨1, 1, 0, 1, 0, 1, 1⟩ 3 (fun _ _ => 0)
    (by norm_num) (by norm_num [MAX_THREADS])
  exact ⟨(h.2.1 0 (by norm_num)).2, h.2.2.2.1, h.2.2.2.2.1⟩

/-! ## Output filenames (`main`, lines 94-98 and 123-141) -/

/-- The per-frame filename built by `snprintf(outfile, ..., "%s%d.jpg", outfile_base, i)`
(line 126) and echoed by `printf("Generated: %s\n", outfile)` (line 140). -/
def outfile (base : String) (i : ℕ) : String := base ++ toString i ++ ".jpg"

/-- The preview filename built by
`snprintf(final_outfile, ..., "%s_final.jpg", outfile_base)` (line 95). -/
def final_outfile (base : String) : String := base ++ "_final.jpg"

/-- The filename actually passed to the Image Sink for frame `i` of the
movie loop: line 138 reads `storeJpegImageFile(img, final_outfile)`, naming
the preview-branch variable rather than the `outfile` just built on
line 126 — so the submitted name does not depend on the frame index.
(As written, `final_outfile` is not even in scope at line 138 — it is local
to the `preview_final` block — so the intended `outfile` was plainly meant.) -/
def submitted_outfile (base : String) (i : ℕ) : String := final_outfile base

/-- C1 (code evaluated at the failing input): the derived per-frame names
for frames 0 and 1 are distinct (`mandel0.jpg` vs `mandel1.jpg`), but the
names actually submitted to the Image Sink coincide, so two frames target
the same filename, contradicting the claim. -/
theorem mandel_C1_code_eval :
    outfile "mandel" 0 ≠ outfile "mandel" 1
    ∧ submitted_outfile "mandel" 0 = submitted_outfile "mandel" 1
    ∧ submitted_outfile "mandel" 0 ≠ outfile "mandel" 0 := by
  refine ⟨by decide, rfl, by decide⟩

/-! ## Viewport derivation (`main`, lines 82 and 89-92 / 131-134) -/

/-- The y-scale computed on line 82:
`yscale = xscale / image_width * image_height`.  It is printed on line 109
but never used in any viewport computation. -/
def yscale_of (xscale : ℚ) (W H : ℕ) : ℚ := xscale / W * H

/-- The viewport actually computed for a frame of scale `s`
(lines 89-92 of the preview branch and lines 131-134 of the movie loop,
identical formulas): `(xmin, xmax, ymin, ymax) = (xc - s/2, xc + s/2, yc - s/2, yc + s/2)`
— the same `scale` is used for both axes. -/
def viewport (xc yc s : ℚ) : ℚ × ℚ × ℚ × ℚ :=
  (xc - s / 2, xc + s / 2, yc - s / 2, yc + s / 2)

/-- Modelled from the spec: the viewport the claim describes, with the
y-bounds derived from the aspect-corrected y-scale
`yscale = xscale * height / width`:
`ymin/ymax = ycenter ∓ (s * H / W) / 2` while `xmin/xmax = xcenter ∓ s/2`. -/
def viewport_aspect (xc yc s : ℚ) (W H : ℕ) : ℚ × ℚ × ℚ × ℚ :=
  (xc - s / 2, xc + s / 2, yc - s * H / W / 2, yc + s * H / W / 2)

/-- Counterexample to C2 as stated: at the program's own default
configuration (center `(-0.743643, 0.131825)` scaled by 10⁶ to stay exact,
here simply `xc = 0, yc = 0`), scale 4 and the default 3840 × 2160 image,
frame 0's code viewport has `ymin = -2`, while the aspect-corrected value
the claim prescribes is `-(4 * 2160/3840)/2 = -9/8`; the two viewports
differ. -/
theorem mandel_C2_counterexample :
    (viewport 0 0 4).2.2.1 = -2
    ∧ (viewport_aspect 0 0 4 3840 2160).2.2.1 = -9/8
    ∧ viewport 0 0 4 ≠ viewport_aspect 0 0 4 3840 2160 := by
  refine ⟨by norm_num [viewport], by norm_num [viewport_aspect], ?_⟩
  intro h
  have := congrArg (fun q => q.2.2.1) h
  norm_num [viewport, viewport_aspect] at this

/-- C2 (amended): the viewport uses the raw scale for both axes:
`ymin/ymax = ycenter ∓ scale/2` exactly like `xmin/xmax = xcenter ∓ scale/2`,
so the viewport is always a square of side `scale` in the complex plane
(`xmax - xmin = ymax - ymin = scale`); the aspect-corrected `yscale` of
line 82 is computed but unused, and whenever `H ≠ W` (with `W > 0` and
`scale ≠ 0`) the code viewport differs from the aspect-corrected one, so
pixels are *not* kept square for non-square images. -/
theorem mandel_C2 (xc yc s : ℚ) (W H : ℕ) (hW : 0 < W) (hne : (H : ℚ) ≠ (W : ℚ))
    (hs : s ≠ 0) :
    (viewport xc yc s).2.1 - (viewport xc yc s).1 = s
    ∧ (viewport xc yc s).2.2.2 - (viewport xc yc s).2.2.1 = s
    ∧ viewport xc yc s ≠ viewport_aspect xc yc s W H := by
  refine ⟨by norm_num [viewport], by norm_num [viewport], ?_⟩
  intro h
  have hW' : (W : ℚ) ≠ 0 := Nat.cast_ne_zero.mpr (by omega)
  have h1 := congrArg (fun q => q.2.2.1) h
  simp only [viewport, viewport_aspect] at h1
  have h2 : s = s * H / W := by linarith
  field_simp at h2
  rcases h2 with h2 | h2
  · exact hne (by exact_mod_cast h2.symm)
  · exact hs h2

/-- Witness for `mandel_C2` at `xc = yc = 0`, `s = 4`, `W = 3840`,
`H = 2160`. -/
theorem mandel_C2_witness :
    (viewport 0 0 4).2.1 - (viewport 0 0 4).1 = 4
    ∧ viewport 0 0 4 ≠ viewport_aspect 0 0 4 3840 2160 := by
  have h := mandel_C2 0 0 4 3840 2160 (by norm_num) (by norm_num) (by norm_num)
  exact ⟨h.1, h.2.2⟩

/-! ## Coordinator wait loop (`main`, lines 145-151) -/

/-- The coordinator's final report, as a function of the exit statuses of
the spawned workers.  Lines 146-148 run `waitpid(pids[p], NULL, 0)` for each
worker — the `NULL` status pointer discards the exit status — and lines
149-150 print a fixed success message; no failed frame range is ever
recorded or printed. -/
def coordinator_report (statuses : List ℤ) : String × List ℕ :=
  ("All images generated. Use ffmpeg to create the movie:", [])

/-- Counterexample to C4 as stated: a run in which the sole worker
terminates abnormally (exit status 1 ≠ 0) still produces the unconditional
success report with an empty list of lost frame indices — the coordinator
does not enumerate the lost FrameRange. -/
theorem mandel_C4_counterexample :
    (1 : ℤ) ≠ 0 ∧ (coordinator_report [1]).2 = [] := ⟨by decide, rfl⟩

/-- C4 (amended): the coordinator does block until every worker has been
waited on, but it passes `NULL` for the status pointer, so its report is
independent of the workers' exit statuses and never enumerates lost frames:
for any two status lists the report is identical, and the reported list of
lost frame indices is always empty. -/
theorem mandel_C4 (statuses statuses2 : List ℤ) :
    coordinator_report statuses = coordinator_report statuses2
    ∧ (coordinator_report statuses).2 = [] := ⟨rfl, rfl⟩

/-! ## Configuration validation (`main`, lines 35-80) -/

/-- The flat configuration consumed by `main` after `getopt` parsing
(lines 22-33); every field is a C `int`. -/
structure Config where
  image_width : ℤ
  image_height : ℤ
  max_iterations : ℤ
  num_images : ℤ
  num_processes : ℤ
  num_threads : ℤ

/-- The only validation `main` performs (lines 66-71): the `-t` thread
count must lie in `[1, MAX_THREADS]`, otherwise `exit(1)`.  No other
configuration field is checked anywhere in the program. -/
def config_accepted (cfg : Config) : Bool :=
  !(cfg.num_threads < 1 || cfg.num_threads > (MAX_THREADS : ℤ))

/-- Counterexample to C5 as stated: a configuration with `width = 0`
(non-positive) and a legal thread count is accepted — the program performs
no rejection, proceeds to allocate buffers and render, contrary to the
claim that every such configuration is rejected with a non-zero exit. -/
theorem mandel_C5_counterexample :
    (0 : ℤ) ≤ 0
    ∧ config_accepted ⟨0, 2160, 1000, 300, 4, 1⟩ = true := ⟨by decide, by decide⟩

/-- C5 (amended): the only configuration check is on the thread count: a
configuration is rejected (non-zero exit, before any buffer allocation) iff
`num_threads` lies outside `[1, MAX_THREADS] = [1, 20]`; acceptance is
entirely independent of width, height, iteration cap, frame count and
process count, so non-positive values of those fields are not rejected. -/
theorem mandel_C5 (cfg cfg2 : Config) :
    (config_accepted cfg = true ↔ 1 ≤ cfg.num_threads ∧ cfg.num_threads ≤ 20)
    ∧ (cfg.num_threads = cfg2.num_threads →
        config_accepted cfg = config_accepted cfg2) := by
  constructor
  · rcases cfg with ⟨w, h, m, n, p, t⟩
    simp [config_accepted, MAX_THREADS]
  · intro h
    unfold config_accepted
    rw [h]

/-- Witness for `mandel_C5`: the default configuration with 1 thread is
accepted, and acceptance at two configurations that differ only away from
the thread count coincides. -/
theorem mandel_C5_witness :
    (config_accepted ⟨3840, 2160, 2000, 300, 4, 1⟩ = true
      ↔ (1 : ℤ) ≤ 1 ∧ (1 : ℤ) ≤ 20)
    ∧ config_accepted ⟨3840, 2160, 2000, 300, 4, 7⟩
        = config_accepted ⟨0, -5, -1, 0, 0, 7⟩ :=
  ⟨(mandel_C5 ⟨3840, 2160, 2000, 300, 4, 1⟩ ⟨3840, 2160, 2000, 300, 4, 1⟩).1,
   (mandel_C5 ⟨3840, 2160, 2000, 300, 4, 7⟩ ⟨0, -5, -1, 0, 0, 7⟩).2 rfl⟩

/-! ## Zoom trajectory (`main`, lines 83-88 and 124)

The trajectory arithmetic calls `pow` with a fractional exponent, so it is
modelled over `ℝ`.  Line 83 hard-codes `final_scale = 1e-11`; per the spec's
stated policy the target scale is treated as a configuration parameter, so
the definitions below take it as an argument (`FINAL_SCALE` records the
constant of the source). -/

/-- The constant of line 83: `double final_scale = 1e-11`. -/
noncomputable def FINAL_SCALE : ℝ := 1e-11

/-- `zoom_factor = pow(final_scale / xscale, 1.0 / num_images)` (line 84). -/
noncomputable def zoom_factor (xscale final_scale : ℝ) (num_images : ℕ) : ℝ :=
  (final_scale / xscale) ^ ((1 : ℝ) / num_images)

/-- `scale = xscale * pow(zoom_factor, i)` (line 124; line 88 is the same
expression at `i = num_images - 1`). -/
noncomputable def frame_scale (xscale final_scale : ℝ) (num_images i : ℕ) : ℝ :=
  xscale * zoom_factor xscale final_scale num_images ^ i

lemma zoom_factor_pos (s f : ℝ) (n : ℕ) (hs : 0 < s) (hf : 0 < f) :
    0 < zoom_factor s f n :=
  Real.rpow_pos_of_pos (div_pos hf hs) _

/-- `zoom_factor ^ k` collapses to a single real power of `f / s`. -/
lemma zoom_factor_pow (s f : ℝ) (n k : ℕ) (hs : 0 < s) (hf : 0 < f) :
    zoom_factor s f n ^ k = (f / s) ^ ((k : ℝ) / n) := by
  have hq : (0 : ℝ) ≤ f / s := (div_pos hf hs).le
  unfold zoom_factor
  rw [← Real.rpow_natCast ((f / s) ^ ((1 : ℝ) / n)) k, ← Real.rpow_mul hq]
  congr 1
  ring

/-- At the frame index `num_images` the geometric sequence reaches the
target exactly (in exact real arithmetic). -/
lemma frame_scale_last (s f : ℝ) (n : ℕ) (hs : 0 < s) (hf : 0 < f)
    (hn : 1 ≤ n) : frame_scale s f n n = f := by
  have hn0 : ((n : ℝ)) ≠ 0 := Nat.cast_ne_zero.mpr (by omega)
  unfold frame_scale
  rw [zoom_factor_pow s f n n hs hf, div_self hn0, Real.rpow_one]
  field_simp

/-- The penultimate frame's scale misses the target by exactly the factor
`(s / f) ^ (1/n)`. -/
lemma frame_scale_penultimate (s f : ℝ) (n : ℕ) (hs : 0 < s) (hf : 0 < f)
    (hn : 1 ≤ n) :
    frame_scale s f n (n - 1) = f * (s / f) ^ ((1 : ℝ) / n) := by
  have hq : (0 : ℝ) < f / s := div_pos hf hs
  have hn0 : ((n : ℝ)) ≠ 0 := Nat.cast_ne_zero.mpr (by omega)
  unfold frame_scale
  rw [zoom_factor_pow s f n (n - 1) hs hf]
  have hcast : ((n - 1 : ℕ) : ℝ) = (n : ℝ) - 1 := by
    rw [Nat.cast_sub hn]; norm_num
  rw [hcast]
  have hexp : ((n : ℝ) - 1) / n = 1 + -(1 / n) := by field_simp; ring
  rw [hexp, Real.rpow_add hq, Real.rpow_one, Real.rpow_neg hq.le]
  have hinv : (s / f) ^ ((1 : ℝ) / n) = ((f / s) ^ ((1 : ℝ) / n))⁻¹ := by
    rw [← Real.inv_rpow hq.le, inv_div]
  rw [hinv]
  field_simp
  ring

/-- C3: with `final_scale` taken as a configuration input (the spec's stated
policy; the source hard-codes `1e-11` on line 83), the per-frame scale is
`scale_i = xscale * zoom_factor ^ i` with
`zoom_factor = (final_scale / xscale) ^ (1 / num_images)`; consequently
`scale 0` equals the configured initial scale exactly, the sequence lands on
the target: `scale (n-1)` equals `final_scale` up to the factor
`(s/f) ^ (1/n)`, which tends to 1 as the frame count grows (and
`scale n = final_scale` exactly), and for `final_scale < initial` the
sequence is strictly decreasing in the frame index. -/
theorem mandel_C3 (s f : ℝ) (n : ℕ) (hs : 0 < s) (hf : 0 < f) (hn : 1 ≤ n) :
    frame_scale s f n 0 = s
    ∧ frame_scale s f n n = f
    ∧ frame_scale s f n (n - 1) = f * (s / f) ^ ((1 : ℝ) / n)
    ∧ Filter.Tendsto (fun m : ℕ => frame_scale s f m (m - 1) / f)
        Filter.atTop (nhds 1)
    ∧ (f < s → ∀ i j, i < j → frame_scale s f n j < frame_scale s f n i) := by
  have hq : (0 : ℝ) < f / s := div_pos hf hs
  refine ⟨by simp [frame_scale], frame_scale_last s f n hs hf hn,
    frame_scale_penultimate s f n hs hf hn, ?_, ?_⟩
  · -- the relative error factor (s/f)^(1/m) tends to 1
    have hb : (0 : ℝ) < s / f := div_pos hs hf
    have h1 : Filter.Tendsto (fun m : ℕ => Real.log (s / f) * (1 / m))
        Filter.atTop (nhds (Real.log (s / f) * 0)) :=
      tendsto_one_div_atTop_nhds_zero_nat.const_mul _
    rw [mul_zero] at h1
    have h2 : Filter.Tendsto (fun m : ℕ => Real.exp (Real.log (s / f) * (1 / m)))
        Filter.atTop (nhds (Real.exp 0)) :=
      (Real.continuous_exp.tendsto 0).comp h1
    rw [Real.exp_zero] at h2
    have h3 : Filter.Tendsto (fun m : ℕ => (s / f) ^ ((1 : ℝ) / m))
        Filter.atTop (nhds 1) := by
      refine h2.congr ?_
      intro m
      rw [← Real.rpow_def_of_pos hb]
    refine h3.congr' ?_
    filter_upwards [Filter.eventually_atTop.mpr ⟨1, fun m hm => hm⟩] with m hm
    rw [frame_scale_penultimate s f m hs hf hm, mul_comm,
      mul_div_assoc, div_self hf.ne', mul_one]
  · intro hfs i j hij
    have hzf1 : zoom_factor s f n < 1 := by
      have hlt : f / s < 1 := (div_lt_one hs).mpr hfs
      have hn0 : (0 : ℝ) < 1 / n := by
        have : (0 : ℝ) < n := by exact_mod_cast (by omega : 0 < n)
        positivity
      exact Real.rpow_lt_one hq.le hlt hn0
    have hzf0 : 0 < zoom_factor s f n := zoom_factor_pos s f n hs hf
    unfold frame_scale
    exact mul_lt_mul_of_pos_left
      (pow_lt_pow_right_of_lt_one₀ hzf0 hzf1 hij) hs

/-- Witness for `mandel_C3` at `s = 4`, `f = 2`, `n = 2`: the initial scale
is hit exactly and the sequence decreases from frame 1 to frame 2. -/
theorem mandel_C3_witness :
    frame_scale 4 2 2 0 = 4 ∧ frame_scale 4 2 2 2 < frame_scale 4 2 2 1 := by
  have h := mandel_C3 4 2 2 (by norm_num) (by norm_num) (by norm_num)
  exact ⟨h.1, h.2.2.2.2 (by norm_num) 1 2 (by norm_num)⟩

end Mandelmovie
